import Mathlib

/-!
Verification of the discovery-scoring and extraction-resolution-graph pipeline
of the `discovered-labs` repository, against its natural-language specification.

The Python code is shallowly embedded:
* Python `str` values manipulated character-wise (the normalizer, metric
  counting) are modelled as lists of Unicode code points (`PyStr := List Nat`);
  strings used only as opaque keys (entity names, subreddit rows) are `String`.
* SQLite `REAL` columns and Python floats are modelled as exact rationals `ℚ`.
* Fallible external calls (LLM inference) are modelled as explicit oracles
  returning `Option`, `none` standing for a raised exception.
* Wall-clock readings (`time.time()`) are modelled as an explicit environment
  `Nat → ℚ` giving the clock value observed at each call site.
-/

set_option autoImplicit false

namespace DiscoveredLabs

/-! ## Python string model (backend/engines/discovery/core.py)

`normalize_name`, `deduplicate_subreddits` and the metric computation in
`calculate_and_insert_subreddit_score` manipulate strings character-wise,
so Python strings are modelled as lists of Unicode code points. -/

/-- A Python string as its list of Unicode code points. -/
abbrev PyStr := List Nat

/-- Read a Lean string literal into the code-point model. -/
def strToCodes (s : String) : PyStr := s.toList.map Char.toNat

/-- `str.lower` on a single code point (ASCII `A`-`Z` range, as exercised by
the pipeline's inputs). -/
def toLowerCode (c : Nat) : Nat := if 65 ≤ c ∧ c ≤ 90 then c + 32 else c

/-- `str.lower`. -/
def lowerCodes (s : PyStr) : PyStr := s.map toLowerCode

/-- Whitespace code points stripped by `str.strip()` (ASCII whitespace). -/
def isSpaceCode (c : Nat) : Bool := c == 32 || c == 9 || c == 10 || c == 13 || c == 11 || c == 12

/-- `str.strip()`: remove leading and trailing whitespace. -/
def pyStrip (s : PyStr) : PyStr :=
  ((s.dropWhile isSpaceCode).reverse.dropWhile isSpaceCode).reverse

/-- `str.startswith(p)`. -/
def hasPref : PyStr → PyStr → Bool
  | [], _ => true
  | _ :: _, [] => false
  | p :: ps, c :: cs => p == c && hasPref ps cs

/-- `normalize_name` (core.py lines 43-50).  The `isinstance` check has no
counterpart in the typed embedding; `not x` is the empty-string test. -/
def normalize_name (x : PyStr) : Option PyStr :=
  if x = [] then none
  else if hasPref (strToCodes "/r/") x then some (lowerCodes (x.drop 1))
  else if hasPref (strToCodes "r/") x then some (lowerCodes x)
  else some (strToCodes "r/" ++ lowerCodes (pyStrip x))

/-- Adding one element to a Python `set`, modelled as a duplicate-free list in
first-insertion order. -/
def setInsert (acc : List PyStr) (x : PyStr) : List PyStr :=
  if x ∈ acc then acc else acc ++ [x]

/-- `deduplicate_subreddits` (core.py lines 33-59): normalize every input and
collect the results into a set; inputs the normalizer rejects are skipped. -/
def deduplicate_subreddits (subreddits : List PyStr) : List PyStr :=
  subreddits.foldl
    (fun acc sub =>
      match normalize_name sub with
      | some n => setInsert acc n
      | none => acc)
    []

/-! ### Basic lemmas about the string model -/

theorem toLowerCode_idem (c : Nat) : toLowerCode (toLowerCode c) = toLowerCode c := by
  simp only [toLowerCode]
  split
  · rw [if_neg (by omega)]
  · rfl

theorem lowerCodes_idem (s : PyStr) : lowerCodes (lowerCodes s) = lowerCodes s := by
  induction s with
  | nil => rfl
  | cons c cs ih => simp [lowerCodes] at ih ⊢; exact ⟨toLowerCode_idem c, ih⟩

theorem hasPref_iff (p s : PyStr) : hasPref p s = true ↔ ∃ t, s = p ++ t := by
  induction p generalizing s with
  | nil => simp [hasPref]
  | cons a ps ih =>
    cases s with
    | nil => simp [hasPref]
    | cons b ss =>
      simp only [hasPref, Bool.and_eq_true, beq_iff_eq, ih, List.cons_append, List.cons.injEq]
      constructor
      · rintro ⟨rfl, t, rfl⟩; exact ⟨t, rfl, rfl⟩
      · rintro ⟨t, rfl, rfl⟩; exact ⟨rfl, t, rfl⟩

theorem isSpaceCode_toLowerCode (c : Nat) : isSpaceCode (toLowerCode c) = isSpaceCode c := by
  simp only [toLowerCode]
  split
  · next h =>
    have h1 : isSpaceCode (c + 32) = false := by
      simp only [isSpaceCode, Bool.or_eq_false_iff, beq_eq_false_iff_ne, ne_eq]
      omega
    have h2 : isSpaceCode c = false := by
      simp only [isSpaceCode, Bool.or_eq_false_iff, beq_eq_false_iff_ne, ne_eq]
      omega
    rw [h1, h2]
  · rfl

theorem pyStrip_lowerCodes (s : PyStr) : pyStrip (lowerCodes s) = lowerCodes (pyStrip s) := by
  have hpred : (isSpaceCode ∘ toLowerCode) = isSpaceCode := by
    funext c; exact isSpaceCode_toLowerCode c
  simp only [pyStrip, lowerCodes]
  rw [List.dropWhile_map, hpred, ← List.map_reverse, List.dropWhile_map, hpred,
    ← List.map_reverse]

theorem toLowerCode_not_upper (c : Nat) : ¬(65 ≤ toLowerCode c ∧ toLowerCode c ≤ 90) := by
  unfold toLowerCode; split <;> omega

theorem lowerCodes_eq_nil {s : PyStr} (h : lowerCodes s = []) : s = [] := by
  cases s with
  | nil => rfl
  | cons c cs => simp [lowerCodes] at h

/-- Every name the normalizer yields has the shape `"r/" ++ lowered tail`
(114 and 47 are the code points of `r` and `/`). -/
theorem normalize_name_form {x y : PyStr} (h : normalize_name x = some y) :
    ∃ z, y = 114 :: 47 :: lowerCodes z := by
  have e1 : strToCodes "/r/" = [47, 114, 47] := rfl
  unfold normalize_name at h
  rw [e1] at h
  split at h
  · exact absurd h (by simp)
  split at h
  · next hp =>
    obtain ⟨t, rfl⟩ := (hasPref_iff _ _).mp hp
    refine ⟨t, ?_⟩
    have hd : ([47, 114, 47] ++ t).drop 1 = 114 :: 47 :: t := rfl
    rw [hd] at h
    have : lowerCodes (114 :: 47 :: t) = 114 :: 47 :: lowerCodes t := by
      simp [lowerCodes]; exact ⟨by decide, by decide⟩
    rw [this] at h
    exact (Option.some.injEq _ _).mp h |>.symm
  split at h
  · next hp =>
    obtain ⟨t, rfl⟩ := (hasPref_iff _ _).mp hp
    refine ⟨t, ?_⟩
    have : lowerCodes (strToCodes "r/" ++ t) = 114 :: 47 :: lowerCodes t := by
      simp [lowerCodes, strToCodes]; exact ⟨by decide, by decide⟩
    rw [this] at h
    exact (Option.some.injEq _ _).mp h |>.symm
  · exact ⟨pyStrip x, ((Option.some.injEq _ _).mp h).symm⟩

/-- A name of the produced shape renormalizes to itself. -/
theorem normalize_name_fixed (z : PyStr) :
    normalize_name (114 :: 47 :: lowerCodes z) = some (114 :: 47 :: lowerCodes z) := by
  unfold normalize_name
  rw [if_neg (by simp)]
  rw [if_neg (by simp [strToCodes, hasPref])]
  rw [if_pos (by simp [strToCodes, hasPref])]
  have : lowerCodes (114 :: 47 :: lowerCodes z) = 114 :: 47 :: lowerCodes z := by
    simp [lowerCodes]
    refine ⟨by decide, by decide, ?_⟩
    have := lowerCodes_idem z
    simpa [lowerCodes] using this
  rw [this]

/-- C3: the normalizer yields a name for every non-empty string, renormalizing
that name returns it unchanged, and the empty string yields no name.
(Non-`str` input has no counterpart in the typed embedding; the code also
rejects it.) -/
theorem normalize_name_idempotent_total :
    (∀ x : PyStr, x ≠ [] → ∃ y, normalize_name x = some y ∧ normalize_name y = some y) ∧
      normalize_name ([] : PyStr) = none := by
  refine ⟨fun x hx => ?_, rfl⟩
  have hsome : ∃ y, normalize_name x = some y := by
    unfold normalize_name
    rw [if_neg hx]
    split
    · exact ⟨_, rfl⟩
    split
    · exact ⟨_, rfl⟩
    · exact ⟨_, rfl⟩
  obtain ⟨y, hy⟩ := hsome
  obtain ⟨z, rfl⟩ := normalize_name_form hy
  exact ⟨_, hy, normalize_name_fixed z⟩

/-- Witness for C3 at the concrete input "/r/TeslaMotors". -/
theorem normalize_name_idempotent_total_witness :
    ∃ y, normalize_name (strToCodes "/r/TeslaMotors") = some y ∧
      normalize_name y = some y :=
  normalize_name_idempotent_total.1 (strToCodes "/r/TeslaMotors") (by decide)

theorem mem_setInsert {acc : List PyStr} {x y : PyStr} :
    y ∈ setInsert acc x ↔ y ∈ acc ∨ y = x := by
  unfold setInsert
  split
  · next h =>
    constructor
    · exact Or.inl
    · rintro (hy | rfl)
      · exact hy
      · exact h
  · simp

theorem nodup_setInsert {acc : List PyStr} (h : acc.Nodup) (x : PyStr) :
    (setInsert acc x).Nodup := by
  unfold setInsert
  split
  · exact h
  · next hx => simp [List.nodup_append, h, hx]

/-- Membership in the dedup fold. -/
theorem mem_dedup_foldl (l : List PyStr) (acc : List PyStr) (y : PyStr) :
    (y ∈ l.foldl
        (fun acc sub =>
          match normalize_name sub with
          | some n => setInsert acc n
          | none => acc) acc) ↔
      y ∈ acc ∨ ∃ x ∈ l, normalize_name x = some y := by
  induction l generalizing acc with
  | nil => simp
  | cons a as ih =>
    simp only [List.foldl_cons, List.mem_cons]
    cases hna : normalize_name a with
    | none =>
      rw [ih]
      constructor
      · rintro (h | h)
        · exact Or.inl h
        · obtain ⟨x, hx, hnx⟩ := h
          exact Or.inr ⟨x, Or.inr hx, hnx⟩
      · rintro (h | ⟨x, hx | hx, hnx⟩)
        · exact Or.inl h
        · subst hx; rw [hna] at hnx; exact absurd hnx (by simp)
        · exact Or.inr ⟨x, hx, hnx⟩
    | some n =>
      rw [ih]
      constructor
      · rintro (h | h)
        · rcases mem_setInsert.mp h with h' | rfl
          · exact Or.inl h'
          · exact Or.inr ⟨a, Or.inl rfl, hna⟩
        · obtain ⟨x, hx, hnx⟩ := h
          exact Or.inr ⟨x, Or.inr hx, hnx⟩
      · rintro (h | ⟨x, hx | hx, hnx⟩)
        · exact Or.inl (mem_setInsert.mpr (Or.inl h))
        · subst hx
          rw [hna] at hnx
          exact Or.inl (mem_setInsert.mpr (Or.inr (by injection hnx.symm)))
        · exact Or.inr ⟨x, hx, hnx⟩

theorem nodup_dedup_foldl (l : List PyStr) (acc : List PyStr) (h : acc.Nodup) :
    (l.foldl
        (fun acc sub =>
          match normalize_name sub with
          | some n => setInsert acc n
          | none => acc) acc).Nodup := by
  induction l generalizing acc with
  | nil => exact h
  | cons a as ih =>
    simp only [List.foldl_cons]
    cases hna : normalize_name a with
    | none => exact ih acc h
    | some n => exact ih _ (nodup_setInsert h n)

/-- C10: the deduplicated candidate set contains no duplicates, and every entry
starts with "r/" and contains no uppercase ASCII letter. -/
theorem dedup_output_invariant (l : List PyStr) :
    (deduplicate_subreddits l).Nodup ∧
      ∀ y ∈ deduplicate_subreddits l,
        (∃ t, y = strToCodes "r/" ++ t) ∧ ∀ c ∈ y, ¬(65 ≤ c ∧ c ≤ 90) := by
  constructor
  · exact nodup_dedup_foldl l [] List.nodup_nil
  · intro y hy
    rcases (mem_dedup_foldl l [] y).mp hy with h | ⟨x, _, hnx⟩
    · exact absurd h (by simp)
    · obtain ⟨z, rfl⟩ := normalize_name_form hnx
      refine ⟨⟨lowerCodes z, rfl⟩, ?_⟩
      intro c hc
      rcases hc with _ | ⟨_, hc⟩
      · omega
      rcases hc with _ | ⟨_, hc⟩
      · omega
      · obtain ⟨d, _, rfl⟩ := List.mem_map.mp hc
        exact toLowerCode_not_upper d

/-- Witness for C10 at a concrete input list. -/
theorem dedup_output_invariant_witness :
    (∃ t, strToCodes "r/tesla" = strToCodes "r/" ++ t) ∧
      ∀ c ∈ strToCodes "r/tesla", ¬(65 ≤ c ∧ c ≤ 90) :=
  (dedup_output_invariant [strToCodes "Tesla", strToCodes "r/Tesla"]).2
    (strToCodes "r/tesla") (by decide)

/-! ### C4: variant collapse in the aggregator -/

/-- `x` is a prefix/case variant of the community whose bare name is `core`:
the same letters up to ASCII case, with an optional literal `r/` or `/r/`
prefix. -/
def variantOf (core x : PyStr) : Prop :=
  ∃ name, lowerCodes name = lowerCodes core ∧
    (x = name ∨ x = strToCodes "r/" ++ name ∨ x = strToCodes "/r/" ++ name)

/-- C4 counterexample: `"R/foo"` and `"r/foo"` are letter-case variants of the
same community identifier, yet deduplication yields two distinct entries,
because the prefix test `startswith("r/")` is case-sensitive. -/
theorem dedup_case_variant_counterexample :
    lowerCodes (strToCodes "R/foo") = lowerCodes (strToCodes "r/foo") ∧
      deduplicate_subreddits [strToCodes "R/foo", strToCodes "r/foo"] =
        [strToCodes "r/r/foo", strToCodes "r/foo"] := by decide

theorem normalize_variant (core : PyStr) (hcore : core ≠ [])
    (hstrip : pyStrip core = core)
    (h1 : hasPref (strToCodes "r/") (lowerCodes core) = false)
    (h2 : hasPref (strToCodes "/r/") (lowerCodes core) = false)
    {x : PyStr} (hx : variantOf core x) :
    normalize_name x = some (strToCodes "r/" ++ lowerCodes core) := by
  have hval : ∀ t : PyStr, lowerCodes (114 :: 47 :: t) = 114 :: 47 :: lowerCodes t := by
    intro t; simp [lowerCodes]; exact ⟨by decide, by decide⟩
  obtain ⟨name, hlow, hcase⟩ := hx
  rcases hcase with h | h | h <;> rw [h]
  · -- bare name
    have hne : name ≠ [] := by
      intro h
      subst h
      exact hcore (lowerCodes_eq_nil hlow.symm)
    have hp2 : hasPref (strToCodes "/r/") name = false := by
      cases hh : hasPref (strToCodes "/r/") name
      · rfl
      · exfalso
        obtain ⟨t, rfl⟩ := (hasPref_iff _ _).mp hh
        have : hasPref (strToCodes "/r/") (lowerCodes core) = true := by
          rw [← hlow]
          refine (hasPref_iff _ _).mpr ⟨lowerCodes t, ?_⟩
          simp [lowerCodes, strToCodes]
          exact ⟨by decide, by decide, by decide⟩
        rw [this] at h2; exact absurd h2 (by simp)
    have hp1 : hasPref (strToCodes "r/") name = false := by
      cases hh : hasPref (strToCodes "r/") name
      · rfl
      · exfalso
        obtain ⟨t, rfl⟩ := (hasPref_iff _ _).mp hh
        have : hasPref (strToCodes "r/") (lowerCodes core) = true := by
          rw [← hlow]
          refine (hasPref_iff _ _).mpr ⟨lowerCodes t, ?_⟩
          simp [lowerCodes, strToCodes]
          exact ⟨by decide, by decide⟩
        rw [this] at h1; exact absurd h1 (by simp)
    unfold normalize_name
    rw [if_neg hne, if_neg (by simp [hp2]), if_neg (by simp [hp1])]
    congr 1
    congr 1
    calc lowerCodes (pyStrip name) = pyStrip (lowerCodes name) := (pyStrip_lowerCodes name).symm
      _ = pyStrip (lowerCodes core) := by rw [hlow]
      _ = lowerCodes (pyStrip core) := pyStrip_lowerCodes core
      _ = lowerCodes core := by rw [hstrip]
  · -- "r/" ++ name
    have hx : strToCodes "r/" ++ name = 114 :: 47 :: name := rfl
    unfold normalize_name
    rw [hx, if_neg (by simp), if_neg (by simp [strToCodes, hasPref]),
      if_pos (by simp [strToCodes, hasPref]), hval, hlow]
    rfl
  · -- "/r/" ++ name
    have hx : strToCodes "/r/" ++ name = 47 :: 114 :: 47 :: name := rfl
    unfold normalize_name
    rw [hx, if_neg (by simp), if_pos (by simp [strToCodes, hasPref])]
    have hd : (47 :: 114 :: 47 :: name).drop 1 = 114 :: 47 :: name := rfl
    rw [hd, hval, hlow]
    rfl

theorem dedup_foldl_stable (as : List PyStr) (acc : List PyStr) (n : PyStr)
    (hall : ∀ x ∈ as, normalize_name x = some n) (hmem : n ∈ acc) :
    (as.foldl
        (fun acc sub =>
          match normalize_name sub with
          | some m => setInsert acc m
          | none => acc) acc) = acc := by
  induction as with
  | nil => rfl
  | cons b bs ih =>
    simp only [List.foldl_cons, hall b (by simp)]
    have : setInsert acc n = acc := by unfold setInsert; rw [if_pos hmem]
    rw [this]
    exact ih fun x hx => hall x (by simp [hx])

/-- C4 amended: deduplication collapses to exactly one entry all variants of a
core identifier that differ in letter case of the name part and/or carry a
literal lowercase "r/" or "/r/" prefix; a case-variant prefix such as "R/" is
not recognized (see the counterexample). -/
theorem dedup_variants_single_entry (l : List PyStr) (core : PyStr)
    (hcore : core ≠ []) (hstrip : pyStrip core = core)
    (h1 : hasPref (strToCodes "r/") (lowerCodes core) = false)
    (h2 : hasPref (strToCodes "/r/") (lowerCodes core) = false)
    (hl : l ≠ []) (hall : ∀ x ∈ l, variantOf core x) :
    deduplicate_subreddits l = [strToCodes "r/" ++ lowerCodes core] := by
  have hn : ∀ x ∈ l, normalize_name x = some (strToCodes "r/" ++ lowerCodes core) :=
    fun x hx => normalize_variant core hcore hstrip h1 h2 (hall x hx)
  cases l with
  | nil => exact absurd rfl hl
  | cons a as =>
    unfold deduplicate_subreddits
    simp only [List.foldl_cons, hn a (by simp)]
    have hins : setInsert [] (strToCodes "r/" ++ lowerCodes core) =
        [strToCodes "r/" ++ lowerCodes core] := by simp [setInsert]
    rw [hins]
    exact dedup_foldl_stable as _ _ (fun x hx => hn x (by simp [hx])) (by simp)

/-- Witness for C4's amended claim: three variants of "foo" collapse to one. -/
theorem dedup_variants_single_entry_witness :
    deduplicate_subreddits [strToCodes "Foo", strToCodes "r/FOO", strToCodes "/r/foo"] =
      [strToCodes "r/" ++ lowerCodes (strToCodes "foo")] :=
  dedup_variants_single_entry _ (strToCodes "foo") (by decide) (by decide)
    (by decide) (by decide) (by decide)
    (by
      intro x hx
      simp only [List.mem_cons, List.not_mem_nil, or_false] at hx
      rcases hx with rfl | rfl | rfl
      · exact ⟨strToCodes "Foo", by decide, Or.inl rfl⟩
      · exact ⟨strToCodes "FOO", by decide, Or.inr (Or.inl rfl)⟩
      · exact ⟨strToCodes "foo", by decide, Or.inr (Or.inr rfl)⟩)

/-! ## Evidence metrics (`calculate_and_insert_subreddit_score`, core.py 62-130)

A fetched post.  `created_time` models the result of parsing
`created_datetime` with `datetime.fromisoformat`: `none` stands for an empty
or unparseable timestamp string (the code skips those via `try/except`). -/

structure SubredditPost where
  post_id : PyStr
  post_url : PyStr
  post_title : PyStr
  self_text : PyStr
  ups : Int
  num_comments : Int
  created_time : Option ℚ
deriving DecidableEq

/-- A row of the `subreddits` table (db.py).  `REAL` columns are exact
rationals; the `json_response` TEXT column stores `str([p.model_dump() ...])`,
modelled as the post list itself (`none` = SQL NULL). -/
structure SubRow where
  subreddit_name : PyStr
  json_response : Option (List SubredditPost)
  engagement_score : ℚ
  freshness_score : ℚ
  frequency_score : ℚ
  relevance_score : Option ℚ
deriving DecidableEq

/-- `len(re.findall(re.escape(pat), text))`: number of non-overlapping
occurrences of the literal `pat`, scanning left to right.  An empty pattern
matches at every position (`len(text) + 1` times). -/
def countOccsFrom (pat : PyStr) (skip : Nat) : PyStr → Nat
  | [] => 0
  | c :: rest =>
    match skip with
    | k + 1 => countOccsFrom pat k rest
    | 0 =>
      if hasPref pat (c :: rest) then 1 + countOccsFrom pat (pat.length - 1) rest
      else countOccsFrom pat 0 rest

def countOccs (pat text : PyStr) : Nat :=
  if pat = [] then text.length + 1 else countOccsFrom pat 0 text

/-- One iteration of the `for post in posts` loop: accumulates
(frequency, total_votes, total_comments, freshness).  The `int(... or 0)`
conversions never raise on typed ints, so `vote_counted_posts` bookkeeping is
dropped. -/
def metricStep (now : ℚ) (qLower : PyStr) (acc : Nat × Int × Int × Nat)
    (p : SubredditPost) : Nat × Int × Int × Nat :=
  (acc.1 + countOccs qLower (lowerCodes p.post_title ++ [32] ++ lowerCodes p.self_text),
   acc.2.1 + p.ups,
   acc.2.2.1 + p.num_comments,
   acc.2.2.2 +
     match p.created_time with
     | some t => if now - 48 * 3600 ≤ t then 1 else 0
     | none => 0)

def metricsFold (now : ℚ) (qLower : PyStr) (posts : List SubredditPost) :
    Nat × Int × Int × Nat :=
  posts.foldl (metricStep now qLower) (0, 0, 0, 0)

/-- `calculate_and_insert_subreddit_score` as the row it inserts.  `now` is
the `time.time()` reading taken at the top of this call. -/
def calculate_and_insert_subreddit_score (now : ℚ) (subreddit : PyStr)
    (posts : List SubredditPost) (query : PyStr) : SubRow :=
  let m := metricsFold now (lowerCodes query) posts
  { subreddit_name := subreddit
    json_response := if posts = [] then none else some posts
    engagement_score := ((m.2.1 + m.2.2.1 : Int) : ℚ)
    freshness_score := (m.2.2.2 : ℚ)
    frequency_score := (m.1 : ℚ)
    relevance_score := none }

/-- The metric-collection loop of `score_and_rank_subreddits_async`:
candidate `i` is processed with the clock reading `env i` (the batching and
inter-batch jitter advance the wall clock between calls; `env` records the
reading each call observes). -/
def collectMetrics (env : Nat → ℚ) (query : PyStr)
    (cands : List (PyStr × List SubredditPost)) : List SubRow :=
  cands.enum.map fun ic => calculate_and_insert_subreddit_score (env ic.1) ic.2.1 ic.2.2 query

/-- Freshness as the spec words it: items created within the trailing 48
hours of the reference clock value `now`. -/
def specFreshness (now : ℚ) (posts : List SubredditPost) : Nat :=
  (posts.filter fun p =>
    match p.created_time with
    | some t => decide (now - 48 * 3600 ≤ t)
    | none => false).length

/-- Frequency as the code computes it per item: occurrences of the lowered
query in `title_lower + " " + selftext_lower` (32 is the space code point). -/
def specFrequencySpaced (query : PyStr) (posts : List SubredditPost) : Nat :=
  (posts.map fun p =>
    countOccs (lowerCodes query) (lowerCodes p.post_title ++ [32] ++ lowerCodes p.self_text)).sum

/-- Frequency as claim C9 words it: occurrences of the lowered query inside
the plain concatenation of lowered title and body. -/
def specFrequencyConcat (query : PyStr) (posts : List SubredditPost) : Nat :=
  (posts.map fun p =>
    countOccs (lowerCodes query) (lowerCodes p.post_title ++ lowerCodes p.self_text)).sum

theorem metricsFold_freshness (now : ℚ) (qL : PyStr) (posts : List SubredditPost)
    (a : Nat × Int × Int × Nat) :
    (posts.foldl (metricStep now qL) a).2.2.2 = a.2.2.2 + specFreshness now posts := by
  induction posts generalizing a with
  | nil => simp [specFreshness]
  | cons p ps ih =>
    simp only [List.foldl_cons, ih, specFreshness, List.filter_cons]
    cases hp : p.created_time with
    | none => simp [metricStep, hp, specFreshness]
    | some t =>
      by_cases hcond : now - 48 * 3600 ≤ t
      · simp [metricStep, hp, hcond, specFreshness]
        omega
      · simp [metricStep, hp, hcond, specFreshness]

theorem metricsFold_frequency (now : ℚ) (qL : PyStr) (posts : List SubredditPost)
    (a : Nat × Int × Int × Nat) :
    (posts.foldl (metricStep now qL) a).1 =
      a.1 + (posts.map fun p =>
        countOccs qL (lowerCodes p.post_title ++ [32] ++ lowerCodes p.self_text)).sum := by
  induction posts generalizing a with
  | nil => simp
  | cons p ps ih =>
    simp only [List.foldl_cons, ih, List.map_cons, List.sum_cons, metricStep]
    omega

theorem metricsFold_engagement (now : ℚ) (qL : PyStr) (posts : List SubredditPost)
    (a : Nat × Int × Int × Nat) :
    (posts.foldl (metricStep now qL) a).2.1 + (posts.foldl (metricStep now qL) a).2.2.1 =
      a.2.1 + a.2.2.1 + (posts.map fun p => p.ups + p.num_comments).sum := by
  induction posts generalizing a with
  | nil => simp
  | cons p ps ih =>
    simp only [List.foldl_cons, ih, List.map_cons, List.sum_cons, metricStep]
    ring

/-! ### C8: which "now" does freshness use? -/

/-- Claim C8 as stated: every candidate's freshness is counted against the
pipeline start time (the clock reading of the first call, `env 0`), never
re-evaluated per candidate. -/
def freshnessFixedNowClaim : Prop :=
  ∀ (env : Nat → ℚ) (query : PyStr) (cands : List (PyStr × List SubredditPost))
    (i : Nat) (r : SubRow) (c : PyStr × List SubredditPost),
    (collectMetrics env query cands)[i]? = some r → cands[i]? = some c →
    r.freshness_score = (specFreshness (env 0) c.2 : ℚ)

/-- A post created at clock value 0. -/
def postAtZero : SubredditPost :=
  { post_id := [], post_url := [], post_title := [], self_text := []
    ups := 0, num_comments := 0, created_time := some 0 }

/-- C8 counterexample: with the second candidate processed 200000 seconds
after the first (more than 48 hours), a post created at pipeline start is
within 48 hours of the run start but not of the second candidate's own
`time.time()` reading, and the code records freshness 0, not 1. -/
theorem freshness_fixed_now_counterexample : ¬ freshnessFixedNowClaim := by
  intro h
  have h2 := h (fun i => 200000 * i) [] [([], [postAtZero]), ([], [postAtZero])] 1
    (calculate_and_insert_subreddit_score (200000 * 1) [] [postAtZero] [])
    ([], [postAtZero]) (by with_unfolding_all decide) (by decide)
  exact absurd h2 (by with_unfolding_all decide)

/-- C8 amended: freshness counts the items within the trailing 48 hours of
the clock reading taken when that candidate itself is processed (one reading
per candidate, shared by all of that candidate's items). -/
theorem freshness_per_candidate_now (env : Nat → ℚ) (query : PyStr)
    (cands : List (PyStr × List SubredditPost)) (i : Nat) (r : SubRow)
    (c : PyStr × List SubredditPost)
    (hr : (collectMetrics env query cands)[i]? = some r) (hc : cands[i]? = some c) :
    r.freshness_score = (specFreshness (env i) c.2 : ℚ) := by
  unfold collectMetrics at hr
  rw [List.getElem?_map, List.getElem?_enum, hc] at hr
  simp at hr
  subst hr
  show ((metricsFold (env i) (lowerCodes query) c.2).2.2.2 : ℚ) = _
  rw [metricsFold, metricsFold_freshness]
  norm_num

/-- Witness for the amended C8 at a concrete schedule. -/
theorem freshness_per_candidate_now_witness :
    (calculate_and_insert_subreddit_score 7 [] [postAtZero] []).freshness_score =
      (specFreshness ((fun i : Nat => (7 : ℚ)) 0) [postAtZero] : ℚ) :=
  freshness_per_candidate_now (fun _ => 7) [] [([], [postAtZero])] 0
    (calculate_and_insert_subreddit_score 7 [] [postAtZero] []) ([], [postAtZero])
    (by with_unfolding_all decide) (by decide)

/-! ### C9: the frequency metric -/

/-- Claim C9 as stated: frequency is the occurrence count of the lowered
query inside the plain concatenation of lowered title and body, summed over
the fetched items. -/
def frequencyConcatClaim : Prop :=
  ∀ (now : ℚ) (subreddit query : PyStr) (posts : List SubredditPost),
    (calculate_and_insert_subreddit_score now subreddit posts query).frequency_score
      = (specFrequencyConcat query posts : ℚ)

/-- A post with title "a" and body "b". -/
def postTitleBody : SubredditPost :=
  { post_id := [], post_url := [], post_title := strToCodes "a"
    self_text := strToCodes "b", ups := 0, num_comments := 0, created_time := none }

/-- C9 counterexample: the code joins title and body with a single space, so
the query "a b" matches once across the title/body boundary of
(title "a", body "b"), while the claim's plain concatenation "ab" contains no
occurrence. -/
theorem frequency_concat_counterexample : ¬ frequencyConcatClaim := by
  intro h
  have h2 := h 0 [] (strToCodes "a b") [postTitleBody]
  exact absurd h2 (by with_unfolding_all decide)

/-- C9 amended: frequency is the occurrence count of the lowered query inside
lowered title and lowered body joined by a single space, summed over all
fetched items. -/
theorem frequency_space_joined (now : ℚ) (subreddit query : PyStr)
    (posts : List SubredditPost) :
    (calculate_and_insert_subreddit_score now subreddit posts query).frequency_score
      = (specFrequencySpaced query posts : ℚ) := by
  show ((metricsFold now (lowerCodes query) posts).1 : ℚ) = _
  rw [metricsFold, metricsFold_frequency]
  simp [specFrequencySpaced]

/-- The spec's end-to-end scenario: 3 items, two mention "tesla" once, one
mentions it twice, all within 48 hours: frequency 4 and freshness 3. -/
theorem tesla_scenario :
    (calculate_and_insert_subreddit_score 1000 (strToCodes "r/teslamotors")
        [{ post_id := [], post_url := [], post_title := strToCodes "Tesla stock"
           self_text := strToCodes "going up", ups := 1, num_comments := 2
           created_time := some 900 },
         { post_id := [], post_url := [], post_title := strToCodes "news"
           self_text := strToCodes "tesla factory", ups := 3, num_comments := 4
           created_time := some 950 },
         { post_id := [], post_url := [], post_title := strToCodes "Tesla vs tesla"
           self_text := strToCodes "debate", ups := 5, num_comments := 6
           created_time := some 990 }]
        (strToCodes "tesla")).frequency_score = 4 ∧
      (calculate_and_insert_subreddit_score 1000 (strToCodes "r/teslamotors")
        [{ post_id := [], post_url := [], post_title := strToCodes "Tesla stock"
           self_text := strToCodes "going up", ups := 1, num_comments := 2
           created_time := some 900 },
         { post_id := [], post_url := [], post_title := strToCodes "news"
           self_text := strToCodes "tesla factory", ups := 3, num_comments := 4
           created_time := some 950 },
         { post_id := [], post_url := [], post_title := strToCodes "Tesla vs tesla"
           self_text := strToCodes "debate", ups := 5, num_comments := 6
           created_time := some 990 }]
        (strToCodes "tesla")).freshness_score = 3 := by with_unfolding_all decide

/-! ## Ranker (`score_and_rank_subreddits_async`, core.py 283-390; db.py)

The post-collection phase operates on the `subreddits` table, modelled as a
list of `SubRow`.  `insert_subreddit` never supplies `relevance_score`, so
fresh rows carry `none`; `subreddit_name` is the PRIMARY KEY, so tables have
`Nodup` names. -/

/-- SQLite ordering key for `ORDER BY relevance_score DESC`: SQL NULL sorts
below every value, so it lands last in descending order. -/
def relKey (r : SubRow) : WithBot ℚ :=
  match r.relevance_score with
  | none => ⊥
  | some q => (q : WithBot ℚ)

/-- `a` may come before `b` in the descending order. -/
def descRel (a b : SubRow) : Prop := relKey b ≤ relKey a

instance : DecidableRel descRel :=
  fun a b => inferInstanceAs (Decidable (relKey b ≤ relKey a))

instance : IsTotal SubRow descRel := ⟨fun a b => le_total (relKey b) (relKey a)⟩

instance : IsTrans SubRow descRel := ⟨fun _ _ _ hab hbc => le_trans hbc hab⟩

/-- `select_all_subreddits_ordered` (db.py 34-37): all rows ordered by
`relevance_score` descending (NULLs last). -/
def sortByRelevanceDesc (t : List SubRow) : List SubRow := List.insertionSort descRel t

/-- Python `max` over the values of a non-empty dict (`max(m.values())`);
never applied to the empty list. -/
def listMax : List ℚ → ℚ
  | [] => 0
  | v :: vs => vs.foldl max v

/-- `normalize_map`: `v / max_val`, or `0.0` for everyone when the maximum is
zero (`if not max_val`). -/
def normVal (maxv v : ℚ) : ℚ := if maxv = 0 then 0 else v / maxv

/-- `score * 100` where
`score = 0.4*norm_freq + 0.3*norm_fresh + 0.3*norm_eng`. -/
def scoreOf (maxF maxFr maxE : ℚ) (r : SubRow) : ℚ :=
  (4 / 10 * normVal maxF r.frequency_score + 3 / 10 * normVal maxFr r.freshness_score
    + 3 / 10 * normVal maxE r.engagement_score) * 100

/-- `select_subreddits_by_frequency`: rows with
`frequency_score >= min_frequency`. -/
def scoredRows (table : List SubRow) (minFreq : ℚ) : List SubRow :=
  table.filter fun r => minFreq ≤ r.frequency_score

/-- The `update_relevance_score` loop: every row meeting the frequency floor
receives the composite score; the dict-keyed maps coincide with per-row reads
because `subreddit_name` is unique. -/
def scoreUpdate (table : List SubRow) (minFreq : ℚ) : List SubRow :=
  let rows := scoredRows table minFreq
  let maxF := listMax (rows.map (·.frequency_score))
  let maxFr := listMax (rows.map (·.freshness_score))
  let maxE := listMax (rows.map (·.engagement_score))
  table.map fun r =>
    if minFreq ≤ r.frequency_score then
      { r with relevance_score := some (scoreOf maxF maxFr maxE r) }
    else r

/-- `update_json_response_null` for every rank beyond the top 5 (0-based
indices 5..). -/
def prunePayload (top : List SubRow) : List SubRow :=
  top.enum.map fun p => if 5 ≤ p.1 then { p.2 with json_response := none } else p.2

/-- The whole post-scoring phase (core.py 337-390): score, order descending,
keep the top 20 (deleting the rest), null payload beyond rank 5.  When no row
meets the floor the function closes the in-memory store and returns nothing. -/
def rankPhase (table : List SubRow) (minFreq : ℚ) : List SubRow :=
  if scoredRows table minFreq = [] then []
  else prunePayload ((sortByRelevanceDesc (scoreUpdate table minFreq)).take 20)

/-- Row lookup by primary key. -/
def findRow (t : List SubRow) (n : PyStr) : Option SubRow :=
  t.find? fun r => r.subreddit_name == n

/-- Claim-side: `M` is the maximum raw value of the metric list (the spec's
"maximum raw value of that metric over all scored candidates"). -/
def isMaxOf (M : ℚ) (l : List ℚ) : Prop := M ∈ l ∧ ∀ v ∈ l, v ≤ M

/-- Claim-side per-metric normalization, following the spec's words: raw
divided by the maximum, and 0.0 for everyone when the maximum is zero. -/
def claimNorm (M v : ℚ) : ℚ := if M = 0 then 0 else v / M

theorem foldl_max_le (vs : List ℚ) (a : ℚ) :
    a ≤ vs.foldl max a ∧ ∀ v ∈ vs, v ≤ vs.foldl max a := by
  induction vs generalizing a with
  | nil => simp
  | cons b bs ih =>
    have h := ih (max a b)
    refine ⟨le_trans (le_max_left a b) h.1, ?_⟩
    intro v hv
    rcases List.mem_cons.mp hv with rfl | hv'
    · exact le_trans (le_max_right a v) h.1
    · exact h.2 v hv'

theorem foldl_max_mem (vs : List ℚ) (a : ℚ) :
    vs.foldl max a = a ∨ vs.foldl max a ∈ vs := by
  induction vs generalizing a with
  | nil => exact Or.inl rfl
  | cons b bs ih =>
    rcases ih (max a b) with h | h
    · rcases max_choice a b with hm | hm
      · exact Or.inl (by rw [List.foldl_cons, h, hm])
      · exact Or.inr (by rw [List.foldl_cons, h, hm]; exact List.mem_cons_self b bs)
    · exact Or.inr (List.mem_cons_of_mem b h)

theorem listMax_isMax (l : List ℚ) (h : l ≠ []) : isMaxOf (listMax l) l := by
  cases l with
  | nil => exact absurd rfl h
  | cons v vs =>
    constructor
    · rcases foldl_max_mem vs v with h' | h'
      · rw [listMax, h']; exact List.mem_cons_self v vs
      · exact List.mem_cons_of_mem v h'
    · intro w hw
      rcases List.mem_cons.mp hw with rfl | hw'
      · exact (foldl_max_le vs w).1
      · exact (foldl_max_le vs v).2 w hw'

theorem isMaxOf_unique {M M' : ℚ} {l : List ℚ} (h1 : isMaxOf M l) (h2 : isMaxOf M' l) :
    M = M' :=
  le_antisymm (h2.2 M h1.1) (h1.2 M' h2.1)

theorem findRow_map (table : List SubRow) (f : SubRow → SubRow)
    (hf : ∀ s, (f s).subreddit_name = s.subreddit_name)
    (hnodup : (table.map (·.subreddit_name)).Nodup)
    (r : SubRow) (hr : r ∈ table) :
    findRow (table.map f) r.subreddit_name = some (f r) := by
  induction table with
  | nil => cases hr
  | cons s ts ih =>
    simp only [List.map_cons, List.nodup_cons] at hnodup
    rcases List.mem_cons.mp hr with rfl | hr'
    · unfold findRow
      rw [List.map_cons, List.find?_cons_of_pos _ (by simp [hf])]
    · have hne : s.subreddit_name ≠ r.subreddit_name := by
        intro he
        exact hnodup.1 (he ▸ List.mem_map_of_mem (·.subreddit_name) hr')
      unfold findRow
      rw [List.map_cons, List.find?_cons_of_neg _ (by simp [hf]; exact hne)]
      exact ih hnodup.2 hr'

/-- C2: for every candidate whose frequency metric meets the floor, the
persisted composite score equals
100 × (0.4·norm_frequency + 0.3·norm_freshness + 0.3·norm_engagement), each
normalized value being raw/max over all scored candidates and 0 when that
maximum is zero; the holder of a nonzero metric maximum normalizes to 1. -/
theorem ranker_score_postcondition (table : List SubRow) (minFreq : ℚ)
    (hnodup : (table.map (·.subreddit_name)).Nodup)
    (r : SubRow) (hr : r ∈ table) (hfreq : minFreq ≤ r.frequency_score)
    (MF MFr ME : ℚ)
    (hMF : isMaxOf MF ((scoredRows table minFreq).map (·.frequency_score)))
    (hMFr : isMaxOf MFr ((scoredRows table minFreq).map (·.freshness_score)))
    (hME : isMaxOf ME ((scoredRows table minFreq).map (·.engagement_score))) :
    findRow (scoreUpdate table minFreq) r.subreddit_name =
      some { r with relevance_score := some (100 *
          (4 / 10 * claimNorm MF r.frequency_score
            + 3 / 10 * claimNorm MFr r.freshness_score
            + 3 / 10 * claimNorm ME r.engagement_score)) } ∧
      (r.frequency_score = MF → MF ≠ 0 → claimNorm MF r.frequency_score = 1) ∧
      (r.freshness_score = MFr → MFr ≠ 0 → claimNorm MFr r.freshness_score = 1) ∧
      (r.engagement_score = ME → ME ≠ 0 → claimNorm ME r.engagement_score = 1) := by
  have hdiv : ∀ M : ℚ, M ≠ 0 → claimNorm M M = 1 := by
    intro M hM; rw [claimNorm, if_neg hM, div_self hM]
  refine ⟨?_, fun h1 h2 => by rw [h1]; exact hdiv _ h2,
    fun h1 h2 => by rw [h1]; exact hdiv _ h2,
    fun h1 h2 => by rw [h1]; exact hdiv _ h2⟩
  have hmem_scored : r ∈ scoredRows table minFreq :=
    List.mem_filter.mpr ⟨hr, decide_eq_true hfreq⟩
  have hne : scoredRows table minFreq ≠ [] := by
    intro h
    rw [h] at hmem_scored
    exact absurd hmem_scored (List.not_mem_nil r)
  have hmapne : ∀ g : SubRow → ℚ, (scoredRows table minFreq).map g ≠ [] := by
    intro g h
    exact hne (List.map_eq_nil_iff.mp h)
  have hMFeq : listMax ((scoredRows table minFreq).map (·.frequency_score)) = MF :=
    isMaxOf_unique (listMax_isMax _ (hmapne _)) hMF
  have hMFreq : listMax ((scoredRows table minFreq).map (·.freshness_score)) = MFr :=
    isMaxOf_unique (listMax_isMax _ (hmapne _)) hMFr
  have hMEeq : listMax ((scoredRows table minFreq).map (·.engagement_score)) = ME :=
    isMaxOf_unique (listMax_isMax _ (hmapne _)) hME
  simp only [scoreUpdate]
  rw [findRow_map table _
    (fun s => by by_cases hc : minFreq ≤ s.frequency_score <;> simp [hc]) hnodup r hr]
  rw [if_pos hfreq, hMFeq, hMFreq, hMEeq]
  have hsc : scoreOf MF MFr ME r =
      100 * (4 / 10 * claimNorm MF r.frequency_score
        + 3 / 10 * claimNorm MFr r.freshness_score
        + 3 / 10 * claimNorm ME r.engagement_score) := by
    simp only [scoreOf, normVal, claimNorm]
    ring
  rw [hsc]

/-- Concrete rows for the C2 witness. -/
def wrowA : SubRow :=
  { subreddit_name := [0], json_response := none, engagement_score := 2
    freshness_score := 1, frequency_score := 3, relevance_score := none }

def wrowB : SubRow :=
  { subreddit_name := [1], json_response := none, engagement_score := 4
    freshness_score := 0, frequency_score := 1, relevance_score := none }

/-- Witness for C2 on a concrete two-candidate table. -/
theorem ranker_score_postcondition_witness :
    findRow (scoreUpdate [wrowA, wrowB] 1) wrowA.subreddit_name =
      some { wrowA with relevance_score := some (100 *
          (4 / 10 * claimNorm 3 wrowA.frequency_score
            + 3 / 10 * claimNorm 1 wrowA.freshness_score
            + 3 / 10 * claimNorm 4 wrowA.engagement_score)) } ∧
      (wrowA.frequency_score = 3 → (3 : ℚ) ≠ 0 → claimNorm 3 wrowA.frequency_score = 1) ∧
      (wrowA.freshness_score = 1 → (1 : ℚ) ≠ 0 → claimNorm 1 wrowA.freshness_score = 1) ∧
      (wrowA.engagement_score = 4 → (4 : ℚ) ≠ 0 → claimNorm 4 wrowA.engagement_score = 1) :=
  ranker_score_postcondition [wrowA, wrowB] 1 (by decide) wrowA
    (List.mem_cons_self _ _) (by with_unfolding_all decide) 3 1 4
    ⟨by with_unfolding_all decide, by with_unfolding_all decide⟩
    ⟨by with_unfolding_all decide, by with_unfolding_all decide⟩
    ⟨by with_unfolding_all decide, by with_unfolding_all decide⟩

/-! ### C1: retention of the top 20 -/

theorem prunePayload_length (l : List SubRow) : (prunePayload l).length = l.length := by
  simp [prunePayload]

theorem prunePayload_names (l : List SubRow) :
    (prunePayload l).map (·.subreddit_name) = l.map (·.subreddit_name) := by
  unfold prunePayload
  rw [List.map_map]
  have hcomp : ((fun r : SubRow => r.subreddit_name) ∘ fun p : Nat × SubRow =>
      if 5 ≤ p.1 then { p.2 with json_response := none } else p.2) =
      (fun r : SubRow => r.subreddit_name) ∘ Prod.snd := by
    funext p; dsimp [Function.comp]; split <;> rfl
  rw [hcomp, ← List.map_map, List.enum_map_snd]

theorem mem_prunePayload {l : List SubRow} {r : SubRow} (h : r ∈ prunePayload l) :
    ∃ s ∈ l, r.relevance_score = s.relevance_score ∧
      r.frequency_score = s.frequency_score := by
  unfold prunePayload at h
  obtain ⟨p, hp, rfl⟩ := List.mem_map.mp h
  refine ⟨p.2, List.snd_mem_of_mem_enum hp, ?_⟩
  dsimp only
  split <;> exact ⟨rfl, rfl⟩

theorem relKey_eq_bot {r : SubRow} : relKey r = ⊥ ↔ r.relevance_score = none := by
  unfold relKey
  cases r.relevance_score with
  | none => simp
  | some q => simp

/-- In a descending-sorted list with at least `k` non-NULL keys, the first `k`
rows all have non-NULL keys. -/
theorem take_isSome_of_sorted (l : List SubRow) (hs : List.Sorted descRel l) (k : Nat)
    (hk : k ≤ l.countP fun r => r.relevance_score.isSome) :
    ∀ r ∈ l.take k, r.relevance_score.isSome = true := by
  induction l generalizing k with
  | nil => intro r hrk; simp at hrk
  | cons x xs ih =>
    cases k with
    | zero => intro r hrk; simp at hrk
    | succ k' =>
      have hx : x.relevance_score.isSome = true := by
        by_contra hxn
        have hnone : x.relevance_score = none := by
          cases hxx : x.relevance_score
          · rfl
          · rw [hxx] at hxn; simp at hxn
        have hallnone : ∀ y ∈ xs, y.relevance_score = none := by
          intro y hy
          have hd : descRel x y := (List.sorted_cons.mp hs).1 y hy
          have hbot : relKey y ≤ ⊥ := by
            rw [← relKey_eq_bot.mpr hnone]; exact hd
          exact relKey_eq_bot.mp (le_bot_iff.mp hbot)
        have hcount : ((x :: xs).countP fun r => r.relevance_score.isSome) = 0 := by
          rw [List.countP_eq_zero]
          intro a ha
          rcases List.mem_cons.mp ha with rfl | ha'
          · simp [hnone]
          · simp [hallnone a ha']
        rw [hcount] at hk
        omega
      intro r hrk
      rw [List.take_succ_cons] at hrk
      rcases List.mem_cons.mp hrk with rfl | hr'
      · exact hx
      · refine ih (List.sorted_cons.mp hs).2 k' ?_ r hr'
        rw [List.countP_cons, if_pos hx] at hk
        omega

/-- Scoring marks exactly the rows meeting the floor with a non-NULL
relevance. -/
theorem countP_scoreUpdate (table : List SubRow) (minFreq : ℚ)
    (hinit : ∀ r ∈ table, r.relevance_score = none) :
    ((scoreUpdate table minFreq).countP fun r => r.relevance_score.isSome) =
      (scoredRows table minFreq).length := by
  simp only [scoreUpdate]
  rw [List.countP_map]
  have hfil : (scoredRows table minFreq).length =
      table.countP fun r => decide (minFreq ≤ r.frequency_score) := by
    rw [scoredRows, ← List.countP_eq_length_filter]
  rw [hfil]
  apply List.countP_congr
  intro r hr
  dsimp [Function.comp]
  split
  · next hcond => simp [hcond]
  · next hcond => simp [hinit r hr, hcond]

/-- C1: with more than 20 scored candidates, exactly 20 rows remain after
ranking; all of them are scored, every deleted row's key is at most every
kept row's key, and rows at ranks 6..20 have a NULL payload. -/
theorem ranker_retention (table : List SubRow) (minFreq : ℚ)
    (hnodup : (table.map (·.subreddit_name)).Nodup)
    (hinit : ∀ r ∈ table, r.relevance_score = none)
    (hcount : 20 < (scoredRows table minFreq).length) :
    (rankPhase table minFreq).length = 20 ∧
      (∀ r ∈ rankPhase table minFreq,
        minFreq ≤ r.frequency_score ∧ r.relevance_score.isSome = true) ∧
      (∀ r ∈ rankPhase table minFreq, ∀ s ∈ scoreUpdate table minFreq,
        s.subreddit_name ∉ (rankPhase table minFreq).map (·.subreddit_name) →
        relKey s ≤ relKey r) ∧
      (∀ i, ∀ h : i < (rankPhase table minFreq).length, 5 ≤ i →
        ((rankPhase table minFreq).get ⟨i, h⟩).json_response = none) := by
  have hscne : scoredRows table minFreq ≠ [] := by
    intro h; rw [h] at hcount; simp at hcount
  have hrank : rankPhase table minFreq =
      prunePayload ((sortByRelevanceDesc (scoreUpdate table minFreq)).take 20) := by
    unfold rankPhase; rw [if_neg hscne]
  have hperm : List.Perm (sortByRelevanceDesc (scoreUpdate table minFreq))
      (scoreUpdate table minFreq) :=
    List.perm_insertionSort descRel _
  have hsort : List.Sorted descRel (sortByRelevanceDesc (scoreUpdate table minFreq)) :=
    List.sorted_insertionSort descRel _
  have hlenupd : (scoreUpdate table minFreq).length = table.length := by
    simp [scoreUpdate]
  have hlen_sorted : (sortByRelevanceDesc (scoreUpdate table minFreq)).length =
      table.length := by
    rw [hperm.length_eq, hlenupd]
  have h20le : 20 ≤ (sortByRelevanceDesc (scoreUpdate table minFreq)).length := by
    rw [hlen_sorted]
    calc 20 ≤ (scoredRows table minFreq).length := le_of_lt hcount
      _ ≤ table.length := List.length_filter_le _ _
  have hlen20 : ((sortByRelevanceDesc (scoreUpdate table minFreq)).take 20).length = 20 := by
    rw [List.length_take]; omega
  have hcountP :
      ((sortByRelevanceDesc (scoreUpdate table minFreq)).countP
        fun r => r.relevance_score.isSome) = (scoredRows table minFreq).length := by
    rw [hperm.countP_eq]; exact countP_scoreUpdate table minFreq hinit
  have htake_some :
      ∀ r ∈ (sortByRelevanceDesc (scoreUpdate table minFreq)).take 20,
        r.relevance_score.isSome = true :=
    take_isSome_of_sorted _ hsort 20 (by rw [hcountP]; omega)
  have hupd_eq : scoreUpdate table minFreq = table.map fun r =>
      if minFreq ≤ r.frequency_score then
        { r with relevance_score := some (scoreOf
            (listMax ((scoredRows table minFreq).map (·.frequency_score)))
            (listMax ((scoredRows table minFreq).map (·.freshness_score)))
            (listMax ((scoredRows table minFreq).map (·.engagement_score))) r) }
      else r := by
    simp only [scoreUpdate]
  refine ⟨by rw [hrank, prunePayload_length, hlen20], ?_, ?_, ?_⟩
  · intro r hr
    rw [hrank] at hr
    obtain ⟨s, hsmem, hrel, hfreq⟩ := mem_prunePayload hr
    have hsome : s.relevance_score.isSome = true := htake_some s hsmem
    have hsupd : s ∈ scoreUpdate table minFreq :=
      hperm.mem_iff.mp (List.mem_of_mem_take hsmem)
    rw [hupd_eq] at hsupd
    obtain ⟨t, htmem, hft⟩ := List.mem_map.mp hsupd
    by_cases hc : minFreq ≤ t.frequency_score
    · rw [if_pos hc] at hft
      constructor
      · rw [hfreq, ← hft]; exact hc
      · rw [hrel]; exact hsome
    · rw [if_neg hc] at hft
      rw [← hft, hinit t htmem] at hsome
      simp at hsome
  · intro r hr s hs hnot
    rw [hrank] at hr
    obtain ⟨s', hs'mem, hrel, _⟩ := mem_prunePayload hr
    have hsorted' : s ∈ sortByRelevanceDesc (scoreUpdate table minFreq) :=
      hperm.mem_iff.mpr hs
    rw [← List.take_append_drop 20 (sortByRelevanceDesc (scoreUpdate table minFreq))]
      at hsorted'
    rcases List.mem_append.mp hsorted' with hstake | hsdrop
    · exfalso
      apply hnot
      rw [hrank, prunePayload_names]
      exact List.mem_map_of_mem (·.subreddit_name) hstake
    · have hpw := hsort
      rw [← List.take_append_drop 20 (sortByRelevanceDesc (scoreUpdate table minFreq))]
        at hpw
      have hcross := (List.pairwise_append.mp hpw).2.2
      have hd : descRel s' s := hcross s' hs'mem s hsdrop
      have hkey : relKey r = relKey s' := by unfold relKey; rw [hrel]
      rw [hkey]
      exact hd
  · intro i h hi
    have hgoal : ∀ hh : i < (prunePayload
        ((sortByRelevanceDesc (scoreUpdate table minFreq)).take 20)).length,
        ((prunePayload ((sortByRelevanceDesc (scoreUpdate table minFreq)).take 20)).get
          ⟨i, hh⟩).json_response = none := by
      intro hh
      rw [List.get_eq_getElem]
      unfold prunePayload
      rw [List.getElem_map, List.getElem_enum]
      dsimp only
      rw [if_pos hi]
    rw [List.get_of_eq hrank ⟨i, h⟩]
    exact hgoal _

/-- A 21-candidate table for the C1 witness (names are one-character code
lists 0..20, all rows meet any floor up to 1). -/
def wtable : List SubRow :=
  (List.range 21).map fun i =>
    { subreddit_name := [i], json_response := some [], engagement_score := 0
      freshness_score := 0, frequency_score := 1, relevance_score := none }

/-- Witness for C1 on a 21-candidate table with floor 0. -/
theorem ranker_retention_witness :
    (rankPhase wtable 0).length = 20 ∧
      (∀ r ∈ rankPhase wtable 0,
        (0 : ℚ) ≤ r.frequency_score ∧ r.relevance_score.isSome = true) ∧
      (∀ r ∈ rankPhase wtable 0, ∀ s ∈ scoreUpdate wtable 0,
        s.subreddit_name ∉ (rankPhase wtable 0).map (·.subreddit_name) →
        relKey s ≤ relKey r) ∧
      (∀ i, ∀ h : i < (rankPhase wtable 0).length, 5 ≤ i →
        ((rankPhase wtable 0).get ⟨i, h⟩).json_response = none) :=
  ranker_retention wtable 0 (by decide) (by decide)
    (by with_unfolding_all decide)

/-! ## Entity resolver (`resolve_entity_names`, inference/llm_client.py 60-116)

The LLM clustering call is an oracle returning `Option (List EntityGroup)`,
`none` standing for a raised exception.  A Python dict is modelled as an
association list with assignment = replace-or-append and lookup = first
match. -/

/-- One clustering group returned by the inference call. -/
structure EntityGroup where
  master_name : String
  variants : List String
deriving DecidableEq

/-- Dict assignment `m[k] = v`. -/
def dinsert (m : List (String × String)) (k v : String) : List (String × String) :=
  if m.any fun p => p.1 == k then m.map fun p => if p.1 == k then (k, v) else p
  else m ++ [(k, v)]

/-- Dict lookup `m.get(k)`. -/
def dlookup (m : List (String × String)) (k : String) : Option String :=
  (m.find? fun p => p.1 == k).map (·.2)

/-- `k in m`. -/
def containsKey (m : List (String × String)) (k : String) : Bool :=
  m.any fun p => p.1 == k

/-- `resolve_entity_names`: empty input short-circuits to `{}`; on success,
each group's variants map to its master and the master to itself, then any
input name still unmapped maps to itself; on failure, the identity dict
comprehension over the input names. -/
def resolve_entity_names (canonical_names : List String)
    (llmResult : Option (List EntityGroup)) : List (String × String) :=
  if canonical_names = [] then []
  else
    match llmResult with
    | none => canonical_names.foldl (fun acc n => dinsert acc n n) []
    | some groups =>
      let m1 := groups.foldl
        (fun acc g =>
          dinsert (g.variants.foldl (fun a v => dinsert a v g.master_name) acc)
            g.master_name g.master_name)
        []
      canonical_names.foldl
        (fun acc n => if containsKey acc n then acc else dinsert acc n n) m1

/-! ### Dict lemmas -/

theorem dlookup_nil (k : String) : dlookup [] k = none := rfl

theorem dlookup_cons_hit {p : String × String} (ps : List (String × String)) {k : String}
    (h : p.1 = k) : dlookup (p :: ps) k = some p.2 := by
  simp only [dlookup]
  rw [List.find?_cons_of_pos _ (by simpa using h)]
  rfl

theorem dlookup_cons_miss {p : String × String} (ps : List (String × String)) {k : String}
    (h : p.1 ≠ k) : dlookup (p :: ps) k = dlookup ps k := by
  simp only [dlookup]
  rw [List.find?_cons_of_neg _ (by simpa using h)]

theorem dlookup_map_replace (m : List (String × String)) (k v : String) :
    dlookup (m.map fun p => if p.1 == k then (k, v) else p) k =
      if containsKey m k then some v else none := by
  induction m with
  | nil => rfl
  | cons p ps ih =>
    rw [containsKey, List.any_cons, List.map_cons]
    by_cases hp : p.1 = k
    · have hhead : (if p.1 == k then (k, v) else p) = (k, v) := by simp [hp]
      rw [hhead, dlookup_cons_hit _ rfl]
      simp [hp]
    · have hhead : (if p.1 == k then (k, v) else p) = p := by simp [hp]
      have hb : (p.1 == k) = false := by simp [hp]
      rw [hhead, dlookup_cons_miss _ hp, ih, containsKey, hb, Bool.false_or]

theorem dlookup_map_replace_ne (m : List (String × String)) (k v k' : String)
    (h : k' ≠ k) :
    dlookup (m.map fun p => if p.1 == k then (k, v) else p) k' = dlookup m k' := by
  induction m with
  | nil => rfl
  | cons p ps ih =>
    rw [List.map_cons]
    by_cases hp : p.1 = k
    · have hhead : (if p.1 == k then (k, v) else p) = (k, v) := by simp [hp]
      rw [hhead, dlookup_cons_miss _ (fun he => h he.symm),
        dlookup_cons_miss _ (fun he => h (hp ▸ he).symm)]
      exact ih
    · have hhead : (if p.1 == k then (k, v) else p) = p := by simp [hp]
      rw [hhead]
      by_cases hpk' : p.1 = k'
      · rw [dlookup_cons_hit _ hpk', dlookup_cons_hit _ hpk']
      · rw [dlookup_cons_miss _ hpk', dlookup_cons_miss _ hpk']
        exact ih

theorem containsKey_eq_isSome_dlookup (m : List (String × String)) (k : String) :
    containsKey m k = (dlookup m k).isSome := by
  induction m with
  | nil => rfl
  | cons p ps ih =>
    rw [containsKey, List.any_cons]
    by_cases hp : p.1 = k
    · rw [dlookup_cons_hit _ hp]
      simp [hp]
    · rw [dlookup_cons_miss _ hp]
      simp only [show (p.1 == k) = false by simp [hp], Bool.false_or]
      exact ih

theorem dlookup_append_single_self (m : List (String × String)) (k v : String)
    (hm : ∀ p ∈ m, p.1 ≠ k) :
    dlookup (m ++ [(k, v)]) k = some v := by
  induction m with
  | nil => exact dlookup_cons_hit _ rfl
  | cons p ps ih =>
    rw [List.cons_append, dlookup_cons_miss _ (hm p (List.mem_cons_self p ps))]
    exact ih fun q hq => hm q (List.mem_cons_of_mem p hq)

theorem dlookup_append_single_ne (m : List (String × String)) (k v k' : String)
    (h : k' ≠ k) :
    dlookup (m ++ [(k, v)]) k' = dlookup m k' := by
  induction m with
  | nil =>
    rw [List.nil_append, dlookup_cons_miss _ (fun he => h he.symm)]
  | cons p ps ih =>
    rw [List.cons_append]
    by_cases hp : p.1 = k'
    · rw [dlookup_cons_hit _ hp, dlookup_cons_hit _ hp]
    · rw [dlookup_cons_miss _ hp, dlookup_cons_miss _ hp]
      exact ih

theorem dlookup_dinsert_self (m : List (String × String)) (k v : String) :
    dlookup (dinsert m k v) k = some v := by
  unfold dinsert
  split
  · next hany =>
    rw [dlookup_map_replace, if_pos (by rw [containsKey]; exact hany)]
  · next hany =>
    apply dlookup_append_single_self
    intro p hp hpk
    exact hany (List.any_eq_true.mpr ⟨p, hp, by simp [hpk]⟩)

theorem dlookup_dinsert_ne (m : List (String × String)) (k v k' : String)
    (h : k' ≠ k) :
    dlookup (dinsert m k v) k' = dlookup m k' := by
  unfold dinsert
  split
  · exact dlookup_map_replace_ne m k v k' h
  · exact dlookup_append_single_ne m k v k' h

theorem containsKey_dinsert_of_ne (m : List (String × String)) (k v k' : String)
    (h : k' ≠ k) : containsKey (dinsert m k v) k' = containsKey m k' := by
  rw [containsKey_eq_isSome_dlookup, containsKey_eq_isSome_dlookup,
    dlookup_dinsert_ne m k v k' h]

/-! ### Fallback-loop lemmas -/

/-- A self-binding survives the fallback loop. -/
theorem fallback_pres (names : List String) (acc : List (String × String)) (n : String)
    (h : dlookup acc n = some n) :
    dlookup (names.foldl
      (fun acc m => if containsKey acc m then acc else dinsert acc m m) acc) n = some n := by
  induction names generalizing acc with
  | nil => exact h
  | cons m ms ih =>
    simp only [List.foldl_cons]
    by_cases hc : containsKey acc m
    · rw [if_pos hc]; exact ih acc h
    · rw [if_neg hc]
      apply ih
      by_cases hmn : m = n
      · subst hmn; exact dlookup_dinsert_self acc m m
      · rw [dlookup_dinsert_ne acc m m n fun he => hmn he.symm]; exact h

/-- A name in the loop's list that is not yet bound (or already self-bound)
ends up self-bound. -/
theorem fallback_est (names : List String) (acc : List (String × String)) (n : String)
    (hn : n ∈ names)
    (h : containsKey acc n = false ∨ dlookup acc n = some n) :
    dlookup (names.foldl
      (fun acc m => if containsKey acc m then acc else dinsert acc m m) acc) n = some n := by
  induction names generalizing acc with
  | nil => cases hn
  | cons m ms ih =>
    simp only [List.foldl_cons]
    by_cases hmn : m = n
    · subst hmn
      by_cases hc : containsKey acc m
      · rw [if_pos hc]
        rcases h with h | h
        · rw [hc] at h; cases h
        · exact fallback_pres ms acc m h
      · rw [if_neg hc]
        exact fallback_pres ms _ m (dlookup_dinsert_self acc m m)
    · have hn' : n ∈ ms := by
        rcases List.mem_cons.mp hn with h' | h'
        · exact absurd h'.symm hmn
        · exact h'
      by_cases hc : containsKey acc m
      · rw [if_pos hc]; exact ih acc hn' h
      · rw [if_neg hc]
        apply ih _ hn'
        rcases h with h | h
        · left
          rw [containsKey_dinsert_of_ne acc m m n fun he => hmn he.symm]
          exact h
        · right
          rw [dlookup_dinsert_ne acc m m n fun he => hmn he.symm]
          exact h

/-- A bound key stays bound through the fallback loop. -/
theorem fallback_mono (names : List String) (acc : List (String × String)) (n : String)
    (h : containsKey acc n = true) :
    containsKey (names.foldl
      (fun acc m => if containsKey acc m then acc else dinsert acc m m) acc) n = true := by
  induction names generalizing acc with
  | nil => exact h
  | cons b bs ih =>
    simp only [List.foldl_cons]
    by_cases hb : containsKey acc b
    · rw [if_pos hb]; exact ih acc h
    · rw [if_neg hb]
      apply ih
      by_cases hbn : b = n
      · subst hbn
        rw [containsKey_eq_isSome_dlookup, dlookup_dinsert_self]
        rfl
      · rw [containsKey_dinsert_of_ne acc b b n fun he => hbn he.symm]
        exact h

/-- The fallback loop binds every name in its list. -/
theorem fallback_contains (names : List String) (acc : List (String × String)) (n : String)
    (hn : n ∈ names) :
    containsKey (names.foldl
      (fun acc m => if containsKey acc m then acc else dinsert acc m m) acc) n = true := by
  induction names generalizing acc with
  | nil => cases hn
  | cons m ms ih =>
    simp only [List.foldl_cons]
    rcases List.mem_cons.mp hn with rfl | hn'
    · by_cases hc : containsKey acc n
      · rw [if_pos hc]; exact fallback_mono ms acc n hc
      · rw [if_neg hc]
        apply fallback_mono
        rw [containsKey_eq_isSome_dlookup, dlookup_dinsert_self]
        rfl
    · by_cases hc : containsKey acc m
      · rw [if_pos hc]; exact ih acc hn'
      · rw [if_neg hc]; exact ih _ hn'

/-- The identity dict comprehension binds every listed name to itself. -/
theorem identity_fold_lookup (names : List String) (acc : List (String × String))
    (n : String) (h : n ∈ names ∨ dlookup acc n = some n) :
    dlookup (names.foldl (fun acc m => dinsert acc m m) acc) n = some n := by
  induction names generalizing acc with
  | nil =>
    rcases h with h | h
    · cases h
    · exact h
  | cons m ms ih =>
    simp only [List.foldl_cons]
    by_cases hmn : m = n
    · subst hmn
      exact ih _ (Or.inr (dlookup_dinsert_self acc m m))
    · apply ih
      rcases h with h | h
      · rcases List.mem_cons.mp h with h' | h'
        · exact absurd h'.symm hmn
        · exact Or.inl h'
      · exact Or.inr (by
          rw [dlookup_dinsert_ne acc m m n fun he => hmn he.symm]; exact h)

/-- Keys bound while folding one group's variants come from the variants (or
were already bound). -/
theorem containsKey_variants_fold (vs : List String) (mast : String)
    (acc : List (String × String)) (n : String)
    (h : containsKey (vs.foldl (fun a v => dinsert a v mast) acc) n = true) :
    containsKey acc n = true ∨ n ∈ vs := by
  induction vs generalizing acc with
  | nil => exact Or.inl h
  | cons v vs ih =>
    simp only [List.foldl_cons] at h
    rcases ih _ h with hv | hv
    · by_cases hvn : n = v
      · exact Or.inr (by rw [hvn]; exact List.mem_cons_self v vs)
      · rw [containsKey_dinsert_of_ne _ _ _ _ hvn] at hv
        exact Or.inl hv
    · exact Or.inr (List.mem_cons_of_mem v hv)

/-- Keys bound while folding the clustering groups come from variants or
masters. -/
theorem containsKey_groups_fold (groups : List EntityGroup)
    (acc : List (String × String)) (n : String)
    (h : containsKey (groups.foldl
      (fun acc g =>
        dinsert (g.variants.foldl (fun a v => dinsert a v g.master_name) acc)
          g.master_name g.master_name) acc) n = true) :
    containsKey acc n = true ∨ ∃ g ∈ groups, n ∈ g.variants ∨ n = g.master_name := by
  induction groups generalizing acc with
  | nil => exact Or.inl h
  | cons g gs ih =>
    simp only [List.foldl_cons] at h
    rcases ih _ h with hstep | ⟨g', hg', hcase⟩
    · by_cases hmn : n = g.master_name
      · exact Or.inr ⟨g, List.mem_cons_self g gs, Or.inr hmn⟩
      · rw [containsKey_dinsert_of_ne _ _ _ _ hmn] at hstep
        rcases containsKey_variants_fold g.variants g.master_name acc n hstep with hv | hv
        · exact Or.inl hv
        · exact Or.inr ⟨g, List.mem_cons_self g gs, Or.inl hv⟩
    · exact Or.inr ⟨g', List.mem_cons_of_mem g hg', hcase⟩

/-- C5 amended: the variant→master mapping is total over the input names
(never a missing value); every input name not covered by any clustering group
maps to itself, and on total failure every input name maps to itself.  (A
covered name maps to its group's master, which the code does not validate:
see the counterexample for the claim's "never an empty string" part.) -/
theorem resolve_identity_fallback (names : List String) (res : Option (List EntityGroup)) :
    (∀ n ∈ names, (dlookup (resolve_entity_names names res) n).isSome = true) ∧
      (∀ groups, res = some groups →
        ∀ n ∈ names, (∀ g ∈ groups, n ∉ g.variants ∧ n ≠ g.master_name) →
          dlookup (resolve_entity_names names res) n = some n) ∧
      (res = none → ∀ n ∈ names, dlookup (resolve_entity_names names res) n = some n) := by
  by_cases hnil : names = []
  · subst hnil
    refine ⟨?_, ?_, ?_⟩
    · intro n hn; cases hn
    · intro groups hg n hn huncov; cases hn
    · intro hg n hn; cases hn
  · cases res with
    | none =>
      have hid : ∀ n ∈ names, dlookup (resolve_entity_names names none) n = some n := by
        intro n hn
        unfold resolve_entity_names
        rw [if_neg hnil]
        exact identity_fold_lookup names [] n (Or.inl hn)
      refine ⟨?_, ?_, ?_⟩
      · intro n hn; rw [hid n hn]; rfl
      · intro groups hg; cases hg
      · intro _; exact hid
    | some groups =>
      have hres : resolve_entity_names names (some groups) =
          names.foldl (fun acc n => if containsKey acc n then acc else dinsert acc n n)
            (groups.foldl
              (fun acc g =>
                dinsert (g.variants.foldl (fun a v => dinsert a v g.master_name) acc)
                  g.master_name g.master_name) []) := by
        unfold resolve_entity_names
        rw [if_neg hnil]
      refine ⟨?_, ?_, ?_⟩
      · intro n hn
        rw [hres, ← containsKey_eq_isSome_dlookup]
        exact fallback_contains names _ n hn
      · intro groups' hg n hn huncov
        have hg' : groups = groups' := by injection hg
        subst hg'
        rw [hres]
        apply fallback_est names _ n hn
        left
        cases hck : containsKey (groups.foldl
            (fun acc g =>
              dinsert (g.variants.foldl (fun a v => dinsert a v g.master_name) acc)
                g.master_name g.master_name) []) n with
        | false => rfl
        | true =>
          exfalso
          rcases containsKey_groups_fold groups [] n hck with hacc | ⟨g, hgmem, hcase⟩
          · simp [containsKey] at hacc
          · rcases hcase with hv | hm
            · exact (huncov g hgmem).1 hv
            · exact (huncov g hgmem).2 hm
      · intro hg; cases hg

/-- C5 counterexample: a clustering group whose master name is the empty
string maps the covered input name "Acme" to "", contradicting "no input name
ever maps to an empty string". -/
theorem resolve_empty_master_counterexample :
    dlookup (resolve_entity_names ["Acme"] (some [⟨"", ["Acme"]⟩])) "Acme" = some "" ∧
      ("" : String) ≠ "Acme" := by
  constructor
  · rfl
  · decide

/-- Witness for C5's amended claim at a concrete clustering result. -/
theorem resolve_identity_fallback_witness :
    (dlookup (resolve_entity_names ["a", "b"] (some [⟨"M", ["a"]⟩])) "b").isSome = true ∧
      dlookup (resolve_entity_names ["a", "b"] (some [⟨"M", ["a"]⟩])) "b" = some "b" ∧
      dlookup (resolve_entity_names ["a", "b"] none) "a" = some "a" :=
  ⟨(resolve_identity_fallback ["a", "b"] (some [⟨"M", ["a"]⟩])).1 "b" (by decide),
    (resolve_identity_fallback ["a", "b"] (some [⟨"M", ["a"]⟩])).2.1 [⟨"M", ["a"]⟩]
      rfl "b" (by decide) (by decide),
    (resolve_identity_fallback ["a", "b"] none).2.2 rfl "a" (by decide)⟩

/-! ## Extractor (`get_llm_triplets`, llm_client.py 16-52;
`run_parallel_extraction`, extraction.py 15-61)

Posts are the dicts produced by `fetch_all_posts`; the per-batch inference
call is an oracle (`none` = the call raised). -/

/-- One post dict `{id, subreddit, text, url}`. -/
structure PostD where
  id : String
  subreddit : String
  text : String
  url : String
deriving DecidableEq

structure EntityM where
  raw_name : String
  canonical_name : String
deriving DecidableEq

/-- A triplet with its constrained relation vocabulary kept as a string. -/
structure TripletM where
  subject : EntityM
  relationship : String
  object : EntityM
  evidence : String
  suggested_relationship_evidence : Option String
  suggested_relationship : Option String
deriving DecidableEq

/-- `PostAnalysis` (inference/models.py): `post_url` defaults to `None`,
`triplets` to `[]`. -/
structure PostAnalysis where
  has_business_info : Bool
  justification : Option String
  triplets : List TripletM := []
  post_id : String
  post_url : Option String := none
deriving DecidableEq

structure BatchExtraction where
  results : List PostAnalysis
deriving DecidableEq

/-- The failure placeholder built in the `except` branch:
`PostAnalysis(post_id=p.id, has_business_info=False, justification="Error")`. -/
def errorAnalysis (p : PostD) : PostAnalysis :=
  { has_business_info := false, justification := some "Error", triplets := []
    post_id := p.id, post_url := none }

/-- `get_llm_triplets`: empty batch short-circuits; otherwise the inference
call's result, or one failure placeholder per post of the batch when the call
raises. -/
def get_llm_triplets (llmCall : List PostD → Option BatchExtraction)
    (posts : List PostD) : BatchExtraction :=
  if posts = [] then ⟨[]⟩
  else
    match llmCall posts with
    | some r => r
    | none => ⟨posts.map errorAnalysis⟩

/-- `[all_posts[i:i + batch_size] for i in range(0, len(all_posts), 25)]`. -/
def makeBatches (l : List PostD) : List (List PostD) :=
  if l = [] then [] else l.take 25 :: makeBatches (l.drop 25)
termination_by l.length
decreasing_by
  rename_i h
  have : l.length ≠ 0 := fun h0 => h (List.eq_nil_of_length_eq_zero h0)
  simp only [List.length_drop]
  omega

/-- Steps 2-4 of `run_parallel_extraction`: batch, run every batch through
the extraction call, flatten the per-batch `results` in batch order. -/
def run_parallel_extraction_results (llmCall : List PostD → Option BatchExtraction)
    (all_posts : List PostD) : List PostAnalysis :=
  ((makeBatches all_posts).map (get_llm_triplets llmCall)).foldl
    (fun acc b => acc ++ b.results) []

/-- C6: a 30-item corpus splits into batches of 25 and 5; if the first
batch's inference call raises, each of its 25 items is recorded with
`has_business_info = false` and `justification = "Error"`, while the second
batch contributes exactly what processing it alone would produce. -/
theorem extraction_batch_failure_isolated
    (llmCall : List PostD → Option BatchExtraction) (posts : List PostD)
    (r2 : BatchExtraction)
    (hlen : posts.length = 30)
    (hfail : llmCall (posts.take 25) = none)
    (hok : llmCall (posts.drop 25) = some r2) :
    makeBatches posts = [posts.take 25, posts.drop 25] ∧
      run_parallel_extraction_results llmCall posts =
        (posts.take 25).map errorAnalysis ++ r2.results ∧
      (∀ a ∈ (posts.take 25).map errorAnalysis,
        a.has_business_info = false ∧ a.justification = some "Error") ∧
      ((posts.take 25).map errorAnalysis).length = 25 ∧ (posts.drop 25).length = 5 := by
  have hne : posts ≠ [] := by
    intro h; rw [h] at hlen; simp at hlen
  have hdne : posts.drop 25 ≠ [] := by
    intro h
    have := congrArg List.length h
    simp [List.length_drop, hlen] at this
  have hddnil : (posts.drop 25).drop 25 = [] := by
    rw [List.drop_drop]
    apply List.eq_nil_of_length_eq_zero
    simp [List.length_drop, hlen]
  have htdrop : (posts.drop 25).take 25 = posts.drop 25 :=
    List.take_of_length_le (by simp [List.length_drop, hlen])
  have hbatches : makeBatches posts = [posts.take 25, posts.drop 25] := by
    rw [makeBatches, if_neg hne, makeBatches, if_neg hdne, htdrop, hddnil,
      makeBatches, if_pos rfl]
  have htne : posts.take 25 ≠ [] := by
    intro h
    have := congrArg List.length h
    simp [List.length_take, hlen] at this
  have hget1 : get_llm_triplets llmCall (posts.take 25) =
      ⟨(posts.take 25).map errorAnalysis⟩ := by
    rw [get_llm_triplets, if_neg htne, hfail]
  have hget2 : get_llm_triplets llmCall (posts.drop 25) = r2 := by
    rw [get_llm_triplets, if_neg hdne, hok]
  refine ⟨hbatches, ?_, ?_, ?_, by simp [List.length_drop, hlen]⟩
  · rw [run_parallel_extraction_results, hbatches]
    simp only [List.map_cons, List.map_nil, hget1, hget2, List.foldl_cons, List.foldl_nil,
      List.nil_append]
  · intro a ha
    obtain ⟨p, _, rfl⟩ := List.mem_map.mp ha
    exact ⟨rfl, rfl⟩
  · simp [List.length_take, hlen]

/-- A concrete 30-post corpus and an oracle that raises exactly on 25-item
batches. -/
def wposts : List PostD := List.replicate 30 ⟨"p", "s", "t", "u"⟩

def wllmCall (b : List PostD) : Option BatchExtraction :=
  if b.length = 25 then none else some ⟨[]⟩

/-- Witness for C6 on the concrete corpus. -/
theorem extraction_batch_failure_isolated_witness :
    makeBatches wposts = [wposts.take 25, wposts.drop 25] ∧
      run_parallel_extraction_results wllmCall wposts =
        (wposts.take 25).map errorAnalysis ++ (BatchExtraction.mk []).results ∧
      (∀ a ∈ (wposts.take 25).map errorAnalysis,
        a.has_business_info = false ∧ a.justification = some "Error") ∧
      ((wposts.take 25).map errorAnalysis).length = 25 ∧ (wposts.drop 25).length = 5 :=
  extraction_batch_failure_isolated wllmCall wposts ⟨[]⟩ (by decide) (by decide) (by decide)

/-! ## Force graph (`get_force_graph`, routers/relationships.py 79-160)

Rows of the `triplets` table; `evidence` and `post_url` are nullable TEXT
columns, appended to an aggregate only when truthy.  Python's string
comparison is the lexicographic order on `String`. -/

structure TripletRow where
  subject : String
  relationship : String
  object : String
  evidence : Option String
  post_url : Option String
deriving DecidableEq

/-- First occurrence of a dict key (`link_aggregates[pair]` creation order). -/
def pairInsert (acc : List (String × String)) (p : String × String) :
    List (String × String) :=
  if p ∈ acc then acc else acc ++ [p]

/-- The ordered (subject, object) pairs holding an aggregated edge, in
first-seen order. -/
def linkKeys (rows : List TripletRow) : List (String × String) :=
  rows.foldl (fun acc row => pairInsert acc (row.subject, row.object)) []

/-- Python `min(a, b)` / `max(a, b)` on two strings. -/
def pmin (a b : String) : String := if b < a then b else a

def pmax (a b : String) : String := if a < b then b else a

/-- `bidirectional_pairs`: the normalized `(min, max)` of every key whose
reverse is also a key. -/
def bidirectionalPairs (keys : List (String × String)) : List (String × String) :=
  keys.foldl
    (fun acc p =>
      if (p.2, p.1) ∈ keys then pairInsert acc (pmin p.1 p.2, pmax p.1 p.2) else acc)
    []

/-- The curvature assigned to the edge for ordered pair `p`:
`0.2` / `-0.2` when its normalized pair is bidirectional, else `0.0`. -/
def curvatureOf (keys : List (String × String)) (p : String × String) : ℚ :=
  if (pmin p.1 p.2, pmax p.1 p.2) ∈ bidirectionalPairs keys then
    (if p.1 < p.2 then 2 / 10 else -(2 / 10))
  else 0

/-- Python set insertion for strings. -/
def strInsert (acc : List String) (s : String) : List String :=
  if s ∈ acc then acc else acc ++ [s]

/-- `sorted(list(relationships-set))` for an ordered pair. -/
def aggRelationships (rows : List TripletRow) (p : String × String) : List String :=
  List.insertionSort (· ≤ ·)
    (rows.foldl
      (fun acc row =>
        if (row.subject, row.object) = p then strInsert acc row.relationship else acc)
      [])

/-- The evidences appended for an ordered pair (truthy values only). -/
def aggEvidences (rows : List TripletRow) (p : String × String) : List String :=
  rows.foldl
    (fun acc row =>
      if (row.subject, row.object) = p then
        match row.evidence with
        | some e => if e = "" then acc else acc ++ [e]
        | none => acc
      else acc)
    []

/-- `list(set(post_urls))` for an ordered pair. -/
def aggPostUrls (rows : List TripletRow) (p : String × String) : List String :=
  (rows.foldl
    (fun acc row =>
      if (row.subject, row.object) = p then
        match row.post_url with
        | some u => if u = "" then acc else acc ++ [u]
        | none => acc
      else acc)
    []).foldl strInsert []

structure GraphLink where
  source : String
  target : String
  relationships : List String
  evidences : List String
  post_urls : List String
  curvature : ℚ
deriving DecidableEq

/-- The `GraphLink` built for one aggregated ordered pair. -/
def buildLink (rows : List TripletRow) (p : String × String) : GraphLink :=
  { source := p.1, target := p.2
    relationships := aggRelationships rows p
    evidences := aggEvidences rows p
    post_urls := aggPostUrls rows p
    curvature := curvatureOf (linkKeys rows) p }

/-- `links.sort(key=lambda l: (l.source, l.target))`. -/
def linkOrd (a b : GraphLink) : Prop :=
  a.source < b.source ∨ (a.source = b.source ∧ a.target ≤ b.target)

instance : DecidableRel linkOrd := fun a b => by unfold linkOrd; infer_instance

/-- The `links` component of the force-graph response. -/
def get_force_graph_links (rows : List TripletRow) : List GraphLink :=
  List.insertionSort linkOrd ((linkKeys rows).map (buildLink rows))

theorem mem_pairInsert {acc : List (String × String)} {x y : String × String} :
    y ∈ pairInsert acc x ↔ y ∈ acc ∨ y = x := by
  unfold pairInsert
  split
  · next h =>
    constructor
    · exact Or.inl
    · rintro (hy | rfl)
      · exact hy
      · exact h
  · simp

theorem mem_bidir_foldl (keys rest : List (String × String))
    (acc : List (String × String)) (q : String × String) :
    (q ∈ rest.foldl
        (fun acc p =>
          if (p.2, p.1) ∈ keys then pairInsert acc (pmin p.1 p.2, pmax p.1 p.2) else acc)
        acc) ↔
      q ∈ acc ∨ ∃ p ∈ rest, (p.2, p.1) ∈ keys ∧ q = (pmin p.1 p.2, pmax p.1 p.2) := by
  induction rest generalizing acc with
  | nil => simp
  | cons p ps ih =>
    simp only [List.foldl_cons]
    by_cases hb : (p.2, p.1) ∈ keys
    · rw [if_pos hb, ih]
      constructor
      · rintro (h | ⟨r, hr, hrk, rfl⟩)
        · rcases mem_pairInsert.mp h with h' | rfl
          · exact Or.inl h'
          · exact Or.inr ⟨p, List.mem_cons_self p ps, hb, rfl⟩
        · exact Or.inr ⟨r, List.mem_cons_of_mem p hr, hrk, rfl⟩
      · rintro (h | ⟨r, hr, hrk, rfl⟩)
        · exact Or.inl (mem_pairInsert.mpr (Or.inl h))
        · rcases List.mem_cons.mp hr with rfl | hr'
          · exact Or.inl (mem_pairInsert.mpr (Or.inr rfl))
          · exact Or.inr ⟨r, hr', hrk, rfl⟩
    · rw [if_neg hb, ih]
      constructor
      · rintro (h | ⟨r, hr, hrk, rfl⟩)
        · exact Or.inl h
        · exact Or.inr ⟨r, List.mem_cons_of_mem p hr, hrk, rfl⟩
      · rintro (h | ⟨r, hr, hrk, rfl⟩)
        · exact Or.inl h
        · rcases List.mem_cons.mp hr with rfl | hr'
          · exact absurd hrk hb
          · exact Or.inr ⟨r, hr', hrk, rfl⟩

theorem mem_bidirectionalPairs {keys : List (String × String)} {q : String × String} :
    q ∈ bidirectionalPairs keys ↔
      ∃ p ∈ keys, (p.2, p.1) ∈ keys ∧ q = (pmin p.1 p.2, pmax p.1 p.2) := by
  unfold bidirectionalPairs
  rw [mem_bidir_foldl]
  simp

theorem pminmax_cases (a b : String) :
    (pmin a b = a ∧ pmax a b = b) ∨ (pmin a b = b ∧ pmax a b = a) := by
  unfold pmin pmax
  rcases lt_trichotomy a b with h | h | h
  · left; rw [if_neg (asymm h), if_pos h]; exact ⟨rfl, rfl⟩
  · subst h; left; exact ⟨ite_self a, ite_self a⟩
  · right; rw [if_pos h, if_neg (asymm h)]; exact ⟨rfl, rfl⟩

theorem pmin_comm (a b : String) : pmin a b = pmin b a := by
  unfold pmin
  rcases lt_trichotomy a b with h | h | h
  · rw [if_neg (asymm h), if_pos h]
  · subst h; rfl
  · rw [if_pos h, if_neg (asymm h)]

theorem pmax_comm (a b : String) : pmax a b = pmax b a := by
  unfold pmax
  rcases lt_trichotomy a b with h | h | h
  · rw [if_pos h, if_neg (asymm h)]
  · subst h; rfl
  · rw [if_neg (asymm h), if_pos h]

theorem mem_force_links {rows : List TripletRow} {e : GraphLink} :
    e ∈ get_force_graph_links rows ↔ ∃ p ∈ linkKeys rows, e = buildLink rows p := by
  unfold get_force_graph_links
  rw [List.mem_insertionSort]
  constructor
  · intro h
    obtain ⟨p, hp, rfl⟩ := List.mem_map.mp h
    exact ⟨p, hp, rfl⟩
  · rintro ⟨p, hp, rfl⟩
    exact List.mem_map_of_mem _ hp

/-- C7: for distinct entities A and B with aggregated edges in both ordered
directions, the two curvatures are nonzero and of opposite sign; an
aggregated edge whose reverse ordered pair has no aggregated edge has
curvature exactly 0. -/
theorem force_graph_curvature (rows : List TripletRow) (e eRev : GraphLink)
    (he : e ∈ get_force_graph_links rows) (hne : e.source ≠ e.target) :
    (eRev ∈ get_force_graph_links rows → eRev.source = e.target →
      eRev.target = e.source →
      e.curvature ≠ 0 ∧ eRev.curvature ≠ 0 ∧ e.curvature * eRev.curvature < 0) ∧
      ((∀ f ∈ get_force_graph_links rows, ¬(f.source = e.target ∧ f.target = e.source)) →
        e.curvature = 0) := by
  obtain ⟨p, hp, rfl⟩ := mem_force_links.mp he
  obtain ⟨A, B⟩ := p
  have hAB : A ≠ B := hne
  constructor
  · intro hrev hs ht
    obtain ⟨q, hq, rfl⟩ := mem_force_links.mp hrev
    obtain ⟨C, D⟩ := q
    have hs' : C = B := hs
    have ht' : D = A := ht
    rw [hs', ht'] at hq ⊢
    show curvatureOf (linkKeys rows) (A, B) ≠ 0 ∧
      curvatureOf (linkKeys rows) (B, A) ≠ 0 ∧
      curvatureOf (linkKeys rows) (A, B) * curvatureOf (linkKeys rows) (B, A) < 0
    have hbid : (pmin A B, pmax A B) ∈ bidirectionalPairs (linkKeys rows) :=
      mem_bidirectionalPairs.mpr ⟨(A, B), hp, hq, rfl⟩
    have hbid' : (pmin B A, pmax B A) ∈ bidirectionalPairs (linkKeys rows) := by
      rw [pmin_comm B A, pmax_comm B A]; exact hbid
    unfold curvatureOf
    rw [if_pos hbid, if_pos hbid']
    rcases lt_trichotomy A B with h | h | h
    · rw [if_pos h, if_neg (asymm h)]
      norm_num
    · exact absurd h hAB
    · rw [if_neg (asymm h), if_pos h]
      norm_num
  · intro hno
    have hnorev : (B, A) ∉ linkKeys rows := by
      intro hBA
      exact hno (buildLink rows (B, A))
        (mem_force_links.mpr ⟨(B, A), hBA, rfl⟩) ⟨rfl, rfl⟩
    show curvatureOf (linkKeys rows) (A, B) = 0
    unfold curvatureOf
    rw [if_neg ?hnb]
    case hnb =>
      intro hmem
      obtain ⟨q, hq, hqrev, hqeq⟩ := mem_bidirectionalPairs.mp hmem
      obtain ⟨C, D⟩ := q
      have hqeq' : (pmin A B, pmax A B) = (pmin C D, pmax C D) := hqeq
      rcases pminmax_cases A B with ⟨hl1, hl2⟩ | ⟨hl1, hl2⟩ <;>
        rcases pminmax_cases C D with ⟨hr1, hr2⟩ | ⟨hr1, hr2⟩ <;>
          rw [hl1, hl2, hr1, hr2] at hqeq' <;>
            obtain ⟨h1, h2⟩ := Prod.mk.injEq .. ▸ hqeq'
      · exact hnorev (h1 ▸ h2 ▸ hqrev)
      · exact hnorev (h1 ▸ h2 ▸ hq)
      · exact hnorev (h1 ▸ h2 ▸ hq)
      · exact hnorev (h1 ▸ h2 ▸ hqrev)

/-- Concrete rows for the C7 witness: edges a→b and b→a. -/
def wrows : List TripletRow :=
  [⟨"a", "ceo", "b", none, none⟩, ⟨"b", "rival", "a", none, none⟩]

/-- Witness for C7 on the concrete two-row store. -/
theorem force_graph_curvature_witness :
    ((buildLink wrows ("b", "a")) ∈ get_force_graph_links wrows →
      (buildLink wrows ("b", "a")).source = (buildLink wrows ("a", "b")).target →
      (buildLink wrows ("b", "a")).target = (buildLink wrows ("a", "b")).source →
      (buildLink wrows ("a", "b")).curvature ≠ 0 ∧
        (buildLink wrows ("b", "a")).curvature ≠ 0 ∧
        (buildLink wrows ("a", "b")).curvature * (buildLink wrows ("b", "a")).curvature < 0) ∧
      ((∀ f ∈ get_force_graph_links wrows,
        ¬(f.source = (buildLink wrows ("a", "b")).target ∧
          f.target = (buildLink wrows ("a", "b")).source)) →
        (buildLink wrows ("a", "b")).curvature = 0) :=
  force_graph_curvature wrows (buildLink wrows ("a", "b")) (buildLink wrows ("b", "a"))
    (by with_unfolding_all decide) (by decide)

end DiscoveredLabs
